import Mathlib

/-!
Shallow embedding of the `migrate` package (maragudk/migrate, `migrate.go`):
a database schema migration runner.  Pure data is modelled directly; the
database is a small explicit state (version table plus a log of committed
script executions), the file system is a list of `(name, content)` entries in
directory-listing order, and the fallible external calls (file reads, the
user callbacks, statement execution, commit) are driven by an environment of
outcome oracles.  Error strings follow the source messages; the `fmt.Errorf`
wrapper prefixes of the public operations are kept, the `%w`/`%v` detail
formatting is not.  A transaction rollback is modelled as always succeeding
(the source combines a failing rollback's error with the original error; no
claim depends on that path).
-/

namespace Migrate

/-! ### Lexicographic string comparison

Go compares strings byte-wise lexicographically over their UTF-8 encoding,
which coincides with code-point-wise lexicographic comparison.  `listLt` is a
structural (kernel-reducible) implementation; it is bridged to Mathlib's
`String` linear order below. -/

def listLt : List Char → List Char → Bool
  | _, [] => false
  | [], _ :: _ => true
  | a :: as, b :: bs => if a < b then true else if b < a then false else listLt as bs

/-- Go `a < b` on strings. -/
def strLt (a b : String) : Bool := listLt a.data b.data

/-- Go `a <= b` on strings. -/
def strLe (a b : String) : Bool := ! listLt b.data a.data

/-! ### Filename matchers

The source patterns (`migrate.go`):

    upMatcher    = regexp.MustCompile(`^([\w-]+).up.sql$`)
    downMatcher  = regexp.MustCompile(`^([\w-]+).down.sql`)

Note the dots are *not* escaped, so each matches any single character other
than newline (RE2's default `.` excludes `\n`).  The
up pattern is anchored at both ends, hence a match decomposes the string into
a nonempty `[\w-]+` capture group followed by exactly 7 characters matching
`.up.sql` (dot = wildcard).  The down pattern is anchored only at the start:
a nonempty `[\w-]+` group, 9 characters matching `.down.sql`, and an
arbitrary tail.  Go's `\w` is ASCII `[0-9A-Za-z_]`, and RE2's default `.`
matches any character except newline.  Greedy `+` takes the longest group
for which the remainder matches (RE2 submatch semantics agree with
leftmost-first backtracking).  `ReplaceAllString(name, "$1")` replaces the
matched portion with the capture group and keeps any unmatched tail; the
anchored `^` cannot match again, so at most one replacement happens. -/

def isVerChar (c : Char) : Bool := c.isAlphanum || c == '_' || c == '-'

/-- The 7-character tail of the up pattern: `.up.sql`, where each unescaped
dot matches any character except newline (RE2 default). -/
def upTail (cs : List Char) : Bool :=
  match cs with
  | [c0, c1, c2, c3, c4, c5, c6] =>
    !(c0 == '\n') && c1 == 'u' && c2 == 'p' && !(c3 == '\n')
      && c4 == 's' && c5 == 'q' && c6 == 'l'
  | _ => false

/-- `upMatcher.MatchString`. -/
def upMatches (s : String) : Bool :=
  let cs := s.data
  decide (7 < cs.length) && (cs.take (cs.length - 7)).all isVerChar
    && upTail (cs.drop (cs.length - 7))

/-- `upMatcher.ReplaceAllString s "$1"`. -/
def upReplace (s : String) : String :=
  if upMatches s then String.mk (s.data.take (s.data.length - 7)) else s

/-- The 9-character core of the down pattern: `.down.sql` with the unescaped
dots matching any character except newline, followed by an arbitrary tail. -/
def downTail (cs : List Char) : Bool :=
  match cs with
  | c0 :: c1 :: c2 :: c3 :: c4 :: c5 :: c6 :: c7 :: c8 :: _ =>
    !(c0 == '\n') && c1 == 'd' && c2 == 'o' && c3 == 'w' && c4 == 'n'
      && !(c5 == '\n') && c6 == 's' && c7 == 'q' && c8 == 'l'
  | _ => false

/-- Largest group length `k ≤ m` with `1 ≤ k` such that the first `k`
characters are `[\w-]` and the rest begins with the down pattern core: the
greedy capture group length of `downMatcher`. -/
def downKAux (cs : List Char) : Nat → Option Nat
  | 0 => none
  | k+1 =>
    if (cs.take (k+1)).all isVerChar && downTail (cs.drop (k+1)) then some (k+1)
    else downKAux cs k

def downK (cs : List Char) : Option Nat := downKAux cs cs.length

/-- `downMatcher.MatchString`. -/
def downMatches (s : String) : Bool := (downK s.data).isSome

/-- `downMatcher.ReplaceAllString s "$1"`: the capture group followed by the
tail left of the (single, `^`-anchored) match. -/
def downReplace (s : String) : String :=
  match downK s.data with
  | some k => String.mk (s.data.take k ++ s.data.drop (k + 9))
  | none => s

/-! The patterns as written in the specification, with the dots escaped
(literal dots).  These exist only to compare the spec's stated contract with
the source's actual patterns. -/

/-- Modelled from the spec: literal-dot tail `\.up\.sql`. -/
def upTailSpec (cs : List Char) : Bool :=
  match cs with
  | [c0, c1, c2, c3, c4, c5, c6] =>
    c0 == '.' && c1 == 'u' && c2 == 'p' && c3 == '.'
      && c4 == 's' && c5 == 'q' && c6 == 'l'
  | _ => false

/-- Modelled from the spec: `^([\w-]+)\.up\.sql$` with literal dots. -/
def upMatchesSpec (s : String) : Bool :=
  let cs := s.data
  decide (7 < cs.length) && (cs.take (cs.length - 7)).all isVerChar
    && upTailSpec (cs.drop (cs.length - 7))

/-- Modelled from the spec: literal-dot core `\.down\.sql` plus arbitrary tail. -/
def downTailSpec (cs : List Char) : Bool :=
  match cs with
  | c0 :: c1 :: c2 :: c3 :: c4 :: c5 :: c6 :: c7 :: c8 :: _ =>
    c0 == '.' && c1 == 'd' && c2 == 'o' && c3 == 'w' && c4 == 'n'
      && c5 == '.' && c6 == 's' && c7 == 'q' && c8 == 'l'
  | _ => false

def downKAuxSpec (cs : List Char) : Nat → Option Nat
  | 0 => none
  | k+1 =>
    if (cs.take (k+1)).all isVerChar && downTailSpec (cs.drop (k+1)) then some (k+1)
    else downKAuxSpec cs k

/-- Modelled from the spec: `^([\w-]+)\.down\.sql` with literal dots. -/
def downMatchesSpec (s : String) : Bool := (downKAuxSpec s.data s.data.length).isSome

/-! ### Database and environment model

`DB` is the externally observable database state: whether the migrations
table exists, its rows (the version column of every row; the invariant kept
by the library is a single row), and the log of script contents whose
execution was committed.  `Env` supplies the file system (directory entries
in listing order, as `fs.ReadDir` returns them sorted by name) and outcome
oracles for each fallible external call: file reads, the optional before /
after callbacks (which, as in the source, see only the version string), the
version-update statement, the execution of script content, and commit. -/

/-- Result of a user callback or statement execution: success, an error
return, or a runtime panic. -/
inductive Outcome where
  | ok
  | fail
  | panicked
deriving DecidableEq, Repr

structure DB where
  tableCreated : Bool
  rows : List String
  applied : List String
deriving DecidableEq, Repr

/-- Callback invocations observed during a run (these are Go function calls:
unlike SQL effects they are not undone by a rollback). -/
inductive Event where
  | beforeCall (version : String)
  | afterCall (version : String)
deriving DecidableEq, Repr

structure Env where
  files : List (String × String)
  readOk : String → Bool
  hasBefore : Bool
  before : String → Outcome
  hasAfter : Bool
  after : String → Outcome
  updateOutcome : String → Outcome
  exec : String → Outcome
  commitOk : Bool

/-- `fs.ReadFile`: the content of a named entry, or `none` on a read failure. -/
def readFile (env : Env) (name : String) : Option String :=
  if env.readOk name then (env.files.find? (fun p => p.1 == name)).map Prod.snd
  else none

/-- `Migrator.getFilenames`: directory entries matching the matcher, in
listing order. -/
def getFilenames (env : Env) (matcher : String → Bool) : List String :=
  (env.files.map Prod.fst).filter matcher

/-- `Migrator.createMigrationsTable`: in one transaction, create the table if
absent and insert the single empty-string row if the table is empty. -/
def createMigrationsTable (db : DB) : DB :=
  let rows0 := if db.tableCreated then db.rows else []
  { db with tableCreated := true, rows := if rows0.isEmpty then [String.mk []] else rows0 }

/-- `Migrator.getCurrentVersion`: the version column of the (first) row;
errors when the table has no row. -/
def getCurrentVersion (db : DB) : Option String := db.rows.head?

/-- `Migrator.apply`: read the script content, then in one transaction run
the optional before callback, the version-update statement (`update <table>
set version = '<version>'`, which writes every row), the script content, and
the optional after callback, committing on success.  Any error or panic on
the way rolls the transaction back, leaving the database unchanged, and is
surfaced as an error.  The result is the database state after the call, the
callback invocations that happened, and the error if any. -/
def beforeTrace (env : Env) (version : String) : List Event :=
  if env.hasBefore then [Event.beforeCall version] else []

def afterTrace (env : Env) (version : String) : List Event :=
  if env.hasAfter then [Event.afterCall version] else []

def beforeRes (env : Env) (version : String) : Outcome :=
  if env.hasBefore then env.before version else Outcome.ok

def afterRes (env : Env) (version : String) : Outcome :=
  if env.hasAfter then env.after version else Outcome.ok

def apply (env : Env) (db : DB) (name version : String) :
    DB × List Event × Option String :=
  match readFile env name with
  | none => (db, [], some ("error reading migration file " ++ name))
  | some content =>
    match beforeRes env version with
    | Outcome.fail =>
      (db, beforeTrace env version,
        some ("error in 'before' callback when applying version " ++ version
          ++ " from " ++ name))
    | Outcome.panicked => (db, beforeTrace env version, some "panic in transaction")
    | Outcome.ok =>
      match env.updateOutcome version with
      | Outcome.fail =>
        (db, beforeTrace env version, some ("error updating version to " ++ version))
      | Outcome.panicked => (db, beforeTrace env version, some "panic in transaction")
      | Outcome.ok =>
        match env.exec content with
        | Outcome.fail =>
          (db, beforeTrace env version,
            some ("error running migration " ++ version ++ " from " ++ name))
        | Outcome.panicked => (db, beforeTrace env version, some "panic in transaction")
        | Outcome.ok =>
          match afterRes env version with
          | Outcome.fail =>
            (db, beforeTrace env version ++ afterTrace env version,
              some ("error in 'after' callback when applying version "
                ++ version ++ " from " ++ name))
          | Outcome.panicked =>
            (db, beforeTrace env version ++ afterTrace env version,
              some "panic in transaction")
          | Outcome.ok =>
            if env.commitOk then
              ({ db with rows := db.rows.map (fun _ => version),
                         applied := db.applied ++ [content] },
                beforeTrace env version ++ afterTrace env version, none)
            else
              (db, beforeTrace env version ++ afterTrace env version,
                some "error committing transaction")

/-- Predicts whether `apply` succeeds (its outcome depends only on the
environment, not on the database state). -/
def applySucceeds (env : Env) (name version : String) : Bool :=
  (beforeRes env version == Outcome.ok)
    && (env.updateOutcome version == Outcome.ok)
    && (match readFile env name with
        | some content => env.exec content == Outcome.ok
        | none => false)
    && (afterRes env version == Outcome.ok)
    && env.commitOk

/-- The database state after a successful `apply`. -/
def okState (env : Env) (db : DB) (name version : String) : DB :=
  { db with rows := db.rows.map (fun _ => version),
            applied := db.applied ++ [(readFile env name).getD (String.mk [])] }

/-- The callback invocations of one `apply` that reaches the after callback. -/
def fullTrace (env : Env) (version : String) : List Event :=
  beforeTrace env version ++ afterTrace env version

/-! ### The three public operations

Each returns the final database state, the trace of callback invocations, and
the error if any (`none` = success).  `migrateTo`'s result is wrapped in
`Option`: `none` models the runtime panic of the out-of-bounds `names[i-1]`
access in its downward walk (which is not recovered anywhere in the source). -/

/-- Loop body of `MigrateUp`: skip scripts with version `<=` current, apply
the rest in order, stop at the first failure. -/
def upLoop (env : Env) (c : String) : List String → DB → DB × List Event × Option String
  | [], db => (db, [], none)
  | name :: rest, db =>
    let v := upReplace name
    if strLe v c then upLoop env c rest db
    else
      let ar := apply env db name v
      match ar.2.2 with
      | none =>
        let r := upLoop env c rest ar.1
        (r.1, ar.2.1 ++ r.2.1, r.2.2)
      | some e => (ar.1, ar.2.1, some e)

/-- `Migrator.MigrateUp`. -/
def migrateUp (env : Env) (db : DB) : DB × List Event × Option String :=
  let db1 := createMigrationsTable db
  match getCurrentVersion db1 with
  | none => (db1, [], some "error migrating up: error getting current migration version")
  | some c =>
    let names := getFilenames env upMatches
    let r := upLoop env c names db1
    (r.1, r.2.1, r.2.2.map (fun e => "error migrating up: " ++ e))

/-- Loop body of `MigrateDown`: indices descend from `names.length - 1` to
`0` (the argument `k` means indices `k-1, …, 0` remain).  A script with
version `>` current is skipped; otherwise it is applied with the version of
the script at the previous index recorded as the new version, or the empty
string at index `0`. -/
def downLoop (env : Env) (c : String) (names : List String) :
    Nat → DB → DB × List Event × Option String
  | 0, db => (db, [], none)
  | k+1, db =>
    let name := names.getD k (String.mk [])
    let v := downReplace name
    if strLt c v then downLoop env c names k db
    else
      let nv := if 0 < k then downReplace (names.getD (k-1) (String.mk [])) else String.mk []
      let ar := apply env db name nv
      match ar.2.2 with
      | none =>
        let r := downLoop env c names k ar.1
        (r.1, ar.2.1 ++ r.2.1, r.2.2)
      | some e => (ar.1, ar.2.1, some e)

/-- `Migrator.MigrateDown`. -/
def migrateDown (env : Env) (db : DB) : DB × List Event × Option String :=
  let db1 := createMigrationsTable db
  match getCurrentVersion db1 with
  | none => (db1, [], some "error migrating down: error getting current migration version")
  | some c =>
    let names := getFilenames env downMatches
    let r := downLoop env c names names.length db1
    (r.1, r.2.1, r.2.2.map (fun e => "error migrating down: " ++ e))

/-- Upward walk of `MigrateTo`: like `upLoop` but breaking once a version
beyond the target is seen. -/
def upToLoop (env : Env) (c t : String) : List String → DB → DB × List Event × Option String
  | [], db => (db, [], none)
  | name :: rest, db =>
    let v := upReplace name
    if strLe v c then upToLoop env c t rest db
    else if strLt t v then (db, [], none)
    else
      let ar := apply env db name v
      match ar.2.2 with
      | none =>
        let r := upToLoop env c t rest ar.1
        (r.1, ar.2.1 ++ r.2.1, r.2.2)
      | some e => (ar.1, ar.2.1, some e)

/-- Downward walk of `MigrateTo`.  Unlike `downLoop`, the source reads
`names[i-1]` without an `i > 0` guard; reaching that read at index `0` is an
out-of-bounds panic, modelled as `none`. -/
def downToLoop (env : Env) (c t : String) (names : List String) :
    Nat → DB → Option (DB × List Event × Option String)
  | 0, db => some (db, [], none)
  | k+1, db =>
    let name := names.getD k (String.mk [])
    let v := downReplace name
    if strLt c v then downToLoop env c t names k db
    else if strLe v t then some (db, [], none)
    else if k = 0 then none
    else
      let nv := downReplace (names.getD (k-1) (String.mk []))
      let ar := apply env db name nv
      match ar.2.2 with
      | none =>
        (downToLoop env c t names k ar.1).map (fun r => (r.1, ar.2.1 ++ r.2.1, r.2.2))
      | some e => some (ar.1, ar.2.1, some e)

/-- `Migrator.MigrateTo`. -/
def migrateTo (env : Env) (version : String) (db : DB) :
    Option (DB × List Event × Option String) :=
  if version = String.mk [] then
    let r := migrateDown env db
    some (r.1, r.2.1, r.2.2.map (fun e => "error migrating to: " ++ e))
  else
    let db1 := createMigrationsTable db
    match getCurrentVersion db1 with
    | none => some (db1, [], some "error migrating to: error getting current migration version")
    | some c =>
      if c = version then some (db1, [], none)
      else
        let matcher := if strLt c version then upMatches else downMatches
        let repl := if strLt c version then upReplace else downReplace
        let names := getFilenames env matcher
        let foundVersion := names.any (fun n => repl n == version)
        if foundVersion then
          if strLt c version then
            let r := upToLoop env c version names db1
            some (r.1, r.2.1, r.2.2.map (fun e => "error migrating to: " ++ e))
          else
            (downToLoop env c version names names.length db1).map
              (fun r => (r.1, r.2.1, r.2.2.map (fun e => "error migrating to: " ++ e)))
        else some (db1, [], some ("error migrating to: error finding version " ++ version))

/-! ### Generic loop characterization

Both migration loops process a computed list of (script name, version to
record) pairs in order, stopping at the first failed `apply`.  `runPairs`
is that common shape; the loops are proved equal to it below, and `runPairs`
itself is characterized by the successful prefix `okPairs`. -/

def runPairs (env : Env) : List (String × String) → DB → DB × List Event × Option String
  | [], db => (db, [], none)
  | p :: rest, db =>
    let ar := apply env db p.1 p.2
    match ar.2.2 with
    | none =>
      let r := runPairs env rest ar.1
      (r.1, ar.2.1 ++ r.2.1, r.2.2)
    | some e => (ar.1, ar.2.1, some e)

/-- The longest prefix of the pair list whose applications all succeed. -/
def okPairs (env : Env) (ps : List (String × String)) : List (String × String) :=
  ps.takeWhile (fun p => applySucceeds env p.1 p.2)

/-- The state after committing a list of (name, version) pairs. -/
def applyFold (env : Env) (db : DB) (ps : List (String × String)) : DB :=
  ps.foldl (fun d p => okState env d p.1 p.2) db

/-- The pairs processed by `MigrateUp` from version `c`: the discovered up
scripts whose extracted version is strictly greater than `c`, each recording
its own version. -/
def upPairs (c : String) (names : List String) : List (String × String) :=
  (names.filter (fun n => strLt c (upReplace n))).map (fun n => (n, upReplace n))

/-- Each discovered down script paired with the version recorded when it is
reverted: the extracted version of the immediately preceding script in the
discovered list, or the empty string for the first script. -/
def downPairs (names : List String) : List (String × String) :=
  names.zip (String.mk [] :: names.map downReplace)

/-- The pairs processed by `MigrateDown` from version `c`, in processing
order: the discovered-list pairs reversed, keeping scripts whose extracted
version is `<=` `c`. -/
def downSel (c : String) (names : List String) : List (String × String) :=
  ((downPairs names).reverse).filter (fun p => strLe (downReplace p.1) c)

/-- Script content by name, for stating which contents a run committed. -/
def contentOf (env : Env) (name : String) : String :=
  (readFile env name).getD (String.mk [])

/-! ### Concrete fixtures used by the witness theorems -/

def wFiles : List (String × String) :=
  [("1.down.sql", "drop table t1"), ("1.up.sql", "create table t1"),
   ("2.down.sql", "drop table t2"), ("2.up.sql", "create table t2"),
   ("3.down.sql", "drop table t3"), ("3.up.sql", "create table t3")]

/-- An environment in which every external call succeeds. -/
def wEnv : Env :=
  { files := wFiles, readOk := fun _ => true,
    hasBefore := false, before := fun _ => Outcome.ok,
    hasAfter := false, after := fun _ => Outcome.ok,
    updateOutcome := fun _ => Outcome.ok,
    exec := fun _ => Outcome.ok, commitOk := true }

/-- `wEnv` with both callbacks installed and succeeding. -/
def wEnvCb : Env := { wEnv with hasBefore := true, hasAfter := true }

/-- `wEnv` with a failing before callback. -/
def wEnvBeforeFail : Env :=
  { wEnv with hasBefore := true, before := fun _ => Outcome.fail }

/-- `wEnv` with an after callback that panics. -/
def wEnvAfterPanic : Env :=
  { wEnv with hasAfter := true, after := fun _ => Outcome.panicked }

/-- A fresh database: no table yet. -/
def wDb0 : DB := { tableCreated := false, rows := [], applied := [] }

/-- An initialized database at the empty version. -/
def wDbE : DB := { tableCreated := true, rows := [String.mk []], applied := [] }

/-- An initialized database at version `"3"` with the three up scripts applied. -/
def wDb3 : DB :=
  { tableCreated := true, rows := ["3"],
    applied := ["create table t1", "create table t2", "create table t3"] }

/-! ## Theorems -/

theorem listLt_iff_lex : ∀ l1 l2 : List Char, listLt l1 l2 = true ↔ List.Lex (· < ·) l1 l2 := by
  intro l1
  induction l1 with
  | nil =>
    intro l2
    cases l2 with
    | nil => simp [listLt]
    | cons b bs => exact iff_of_true rfl List.Lex.nil
  | cons a as ih =>
    intro l2
    cases l2 with
    | nil => simp [listLt]
    | cons b bs =>
      simp only [listLt]
      by_cases hab : a < b
      · rw [if_pos hab]
        exact iff_of_true rfl (List.Lex.rel hab)
      · rw [if_neg hab]
        by_cases hba : b < a
        · rw [if_pos hba]
          constructor
          · intro h; exact absurd h (by simp)
          · intro h
            cases h with
            | cons h2 => exact absurd hba (lt_irrefl a)
            | rel h2 => exact absurd h2 hab
        · have hEq : a = b := le_antisymm (not_lt.mp hba) (not_lt.mp hab)
          subst hEq
          rw [if_neg hba, ih bs]
          exact (List.Lex.cons_iff (r := (· < ·))).symm

theorem strLt_iff {a b : String} : strLt a b = true ↔ a < b := by
  rw [String.lt_iff_toList_lt]
  exact listLt_iff_lex a.data b.data

theorem strLe_iff {a b : String} : strLe a b = true ↔ a ≤ b := by
  show (! strLt b a) = true ↔ a ≤ b
  constructor
  · intro h
    refine not_lt.mp (fun hba => ?_)
    rw [strLt_iff.mpr hba] at h
    exact absurd h (by simp)
  · intro h
    cases hba : strLt b a with
    | false => rfl
    | true => exact absurd (strLt_iff.mp hba) (not_lt.mpr h)

theorem strLt_eq_false_iff {a b : String} : strLt a b = false ↔ b ≤ a := by
  rw [← not_lt, ← strLt_iff]
  simp

theorem strLe_eq_false_iff {a b : String} : strLe a b = false ↔ b < a := by
  rw [← not_le, ← strLe_iff]
  simp


theorem apply_of_succ (env : Env) (db : DB) (name version : String)
    (h : applySucceeds env name version = true) :
    apply env db name version = (okState env db name version, fullTrace env version, none) := by
  unfold applySucceeds at h
  cases hrf : readFile env name with
  | none => rw [hrf] at h; simp at h
  | some content =>
    rw [hrf] at h
    simp only [Bool.and_eq_true, beq_iff_eq] at h
    obtain ⟨⟨⟨⟨hb, hu⟩, he⟩, ha⟩, hc⟩ := h
    simp only [apply, hrf, hb, hu, he, ha, hc, if_true, okState, fullTrace]
    rfl

theorem apply_state_of_error (env : Env) (db : DB) (name version : String) :
    (apply env db name version).2.2.isSome = true → (apply env db name version).1 = db := by
  cases hrf : readFile env name with
  | none => intro _; simp [apply, hrf]
  | some content =>
    simp only [apply, hrf]
    cases hb : beforeRes env version with
    | fail => intro _; rfl
    | panicked => intro _; rfl
    | ok =>
      cases hu : env.updateOutcome version with
      | fail => intro _; rfl
      | panicked => intro _; rfl
      | ok =>
        cases he : env.exec content with
        | fail => intro _; rfl
        | panicked => intro _; rfl
        | ok =>
          cases ha : afterRes env version with
          | fail => intro _; rfl
          | panicked => intro _; rfl
          | ok =>
            cases hc : env.commitOk with
            | false => intro _; rfl
            | true => intro hcon; simp at hcon

theorem apply_of_fail (env : Env) (db : DB) (name version : String)
    (h : applySucceeds env name version = false) :
    (apply env db name version).1 = db ∧ (apply env db name version).2.2.isSome = true := by
  have herr : (apply env db name version).2.2.isSome = true := by
    unfold applySucceeds at h
    cases hrf : readFile env name with
    | none => simp [apply, hrf]
    | some content =>
      rw [hrf] at h
      simp only [apply, hrf]
      cases hb : beforeRes env version with
      | fail => rfl
      | panicked => rfl
      | ok =>
        cases hu : env.updateOutcome version with
        | fail => rfl
        | panicked => rfl
        | ok =>
          cases he : env.exec content with
          | fail => rfl
          | panicked => rfl
          | ok =>
            cases ha : afterRes env version with
            | fail => rfl
            | panicked => rfl
            | ok =>
              cases hc : env.commitOk with
              | false => rfl
              | true => simp [hb, hu, he, ha, hc] at h
  exact ⟨apply_state_of_error env db name version herr, herr⟩

theorem apply_trace_mem (env : Env) (db : DB) (name version : String) :
    ∀ ev ∈ (apply env db name version).2.1,
      ev = Event.beforeCall version ∨ ev = Event.afterCall version := by
  have hbt : ∀ ev ∈ beforeTrace env version,
      ev = Event.beforeCall version ∨ ev = Event.afterCall version := by
    intro ev hev
    unfold beforeTrace at hev
    cases hB : env.hasBefore <;> rw [hB] at hev <;> simp at hev
    exact Or.inl hev
  have hat : ∀ ev ∈ afterTrace env version,
      ev = Event.beforeCall version ∨ ev = Event.afterCall version := by
    intro ev hev
    unfold afterTrace at hev
    cases hA : env.hasAfter <;> rw [hA] at hev <;> simp at hev
    exact Or.inr hev
  have hcomb : ∀ ev ∈ beforeTrace env version ++ afterTrace env version,
      ev = Event.beforeCall version ∨ ev = Event.afterCall version := by
    intro ev hev
    rcases List.mem_append.mp hev with h | h
    · exact hbt ev h
    · exact hat ev h
  intro ev hev
  cases hrf : readFile env name with
  | none => simp only [apply, hrf] at hev; simp at hev
  | some content =>
    simp only [apply, hrf] at hev
    cases hb : beforeRes env version <;> rw [hb] at hev
    case fail => exact hbt ev hev
    case panicked => exact hbt ev hev
    cases hu : env.updateOutcome version <;> rw [hu] at hev
    case fail => exact hbt ev hev
    case panicked => exact hbt ev hev
    cases he : env.exec content <;> rw [he] at hev
    case fail => exact hbt ev hev
    case panicked => exact hbt ev hev
    cases ha : afterRes env version <;> rw [ha] at hev
    case fail => exact hcomb ev hev
    case panicked => exact hcomb ev hev
    cases hc : env.commitOk <;> rw [hc] at hev
    · exact hcomb ev hev
    · exact hcomb ev hev

theorem apply_rows_length (env : Env) (db : DB) (name version : String) :
    (apply env db name version).1.rows.length = db.rows.length := by
  cases hrf : readFile env name with
  | none => simp [apply, hrf]
  | some content =>
    simp only [apply, hrf]
    cases hb : beforeRes env version with
    | fail => rfl
    | panicked => rfl
    | ok =>
      cases hu : env.updateOutcome version with
      | fail => rfl
      | panicked => rfl
      | ok =>
        cases he : env.exec content with
        | fail => rfl
        | panicked => rfl
        | ok =>
          cases ha : afterRes env version with
          | fail => rfl
          | panicked => rfl
          | ok =>
            cases hc : env.commitOk with
            | false => rfl
            | true => simp


theorem runPairs_state (env : Env) :
    ∀ (ps : List (String × String)) (db : DB),
      (runPairs env ps db).1 = applyFold env db (okPairs env ps) := by
  intro ps
  induction ps with
  | nil => intro db; rfl
  | cons p rest ih =>
    intro db
    cases hs : applySucceeds env p.1 p.2 with
    | true =>
      have hap := apply_of_succ env db p.1 p.2 hs
      simp only [runPairs, hap, okPairs, List.takeWhile_cons, hs, if_true]
      rw [show applyFold env db (p :: List.takeWhile (fun p => applySucceeds env p.1 p.2) rest)
            = applyFold env (okState env db p.1 p.2) (List.takeWhile
                (fun p => applySucceeds env p.1 p.2) rest) from rfl]
      exact ih (okState env db p.1 p.2)
    | false =>
      obtain ⟨hdb, herr⟩ := apply_of_fail env db p.1 p.2 hs
      obtain ⟨e, he⟩ := Option.isSome_iff_exists.mp herr
      simp only [runPairs, he, okPairs, List.takeWhile_cons, hs]
      simpa [applyFold] using hdb

theorem runPairs_error_iff (env : Env) :
    ∀ (ps : List (String × String)) (db : DB),
      ((runPairs env ps db).2.2 = none ↔ okPairs env ps = ps) := by
  intro ps
  induction ps with
  | nil => intro db; simp [runPairs, okPairs]
  | cons p rest ih =>
    intro db
    cases hs : applySucceeds env p.1 p.2 with
    | true =>
      have hap := apply_of_succ env db p.1 p.2 hs
      simp only [runPairs, hap, okPairs, List.takeWhile_cons, hs, if_true]
      rw [show (okPairs env rest = rest) = (List.takeWhile
            (fun p => applySucceeds env p.1 p.2) rest = rest) from rfl] at ih
      constructor
      · intro h
        rw [(ih (okState env db p.1 p.2)).mp h]
      · intro h
        exact (ih (okState env db p.1 p.2)).mpr (List.cons_injective.eq_iff.mp h)
    | false =>
      obtain ⟨hdb, herr⟩ := apply_of_fail env db p.1 p.2 hs
      obtain ⟨e, he⟩ := Option.isSome_iff_exists.mp herr
      simp only [runPairs, he, okPairs, List.takeWhile_cons, hs]
      constructor
      · intro h; exact absurd h (by simp)
      · intro h; exact absurd h.symm (List.cons_ne_nil p rest)

theorem runPairs_trace (env : Env) :
    ∀ (ps : List (String × String)) (db : DB),
      ∀ ev ∈ (runPairs env ps db).2.1,
        ∃ p ∈ ps, ev = Event.beforeCall p.2 ∨ ev = Event.afterCall p.2 := by
  intro ps
  induction ps with
  | nil => intro db ev hev; simp [runPairs] at hev
  | cons p rest ih =>
    intro db ev hev
    cases har : (apply env db p.1 p.2).2.2 with
    | none =>
      simp only [runPairs, har] at hev
      rcases List.mem_append.mp hev with h | h
      · rcases apply_trace_mem env db p.1 p.2 ev h with h2 | h2
        · exact ⟨p, List.mem_cons_self p rest, Or.inl h2⟩
        · exact ⟨p, List.mem_cons_self p rest, Or.inr h2⟩
      · obtain ⟨q, hq, hev2⟩ := ih (apply env db p.1 p.2).1 ev h
        exact ⟨q, List.mem_cons_of_mem p hq, hev2⟩
    | some e =>
      simp only [runPairs, har] at hev
      rcases apply_trace_mem env db p.1 p.2 ev hev with h2 | h2
      · exact ⟨p, List.mem_cons_self p rest, Or.inl h2⟩
      · exact ⟨p, List.mem_cons_self p rest, Or.inr h2⟩

theorem runPairs_rows_length (env : Env) :
    ∀ (ps : List (String × String)) (db : DB),
      (runPairs env ps db).1.rows.length = db.rows.length := by
  intro ps
  induction ps with
  | nil => intro db; rfl
  | cons p rest ih =>
    intro db
    cases har : (apply env db p.1 p.2).2.2 with
    | none =>
      simp only [runPairs, har]
      rw [ih (apply env db p.1 p.2).1]
      exact apply_rows_length env db p.1 p.2
    | some e =>
      simp only [runPairs, har]
      exact apply_rows_length env db p.1 p.2

theorem applyFold_rows (env : Env) :
    ∀ (ps : List (String × String)) (db : DB) (x : String), db.rows = [x] →
      (applyFold env db ps).rows = [(ps.map Prod.snd).getLastD x] := by
  intro ps
  induction ps with
  | nil => intro db x h; simpa [applyFold]
  | cons p rest ih =>
    intro db x h
    have hok : (okState env db p.1 p.2).rows = [p.2] := by
      simp [okState, h]
    rw [show applyFold env db (p :: rest) = applyFold env (okState env db p.1 p.2) rest from rfl]
    rw [ih (okState env db p.1 p.2) p.2 hok, List.map_cons, List.getLastD_cons]

theorem applyFold_applied (env : Env) :
    ∀ (ps : List (String × String)) (db : DB),
      (applyFold env db ps).applied
        = db.applied ++ ps.map (fun p => (readFile env p.1).getD (String.mk [])) := by
  intro ps
  induction ps with
  | nil => intro db; simp [applyFold]
  | cons p rest ih =>
    intro db
    rw [show applyFold env db (p :: rest) = applyFold env (okState env db p.1 p.2) rest from rfl]
    rw [ih (okState env db p.1 p.2)]
    simp [okState]


theorem createMigrationsTable_of_init (db : DB) (hT : db.tableCreated = true)
    (hne : db.rows ≠ []) : createMigrationsTable db = db := by
  cases db with
  | mk t r a =>
    have ht : t = true := hT
    subst ht
    have hr : r ≠ [] := hne
    simp [createMigrationsTable, List.isEmpty_iff, hr]

theorem createMigrationsTable_idem (db : DB) :
    createMigrationsTable (createMigrationsTable db) = createMigrationsTable db := by
  cases db with
  | mk t r a =>
    apply createMigrationsTable_of_init
    · rfl
    · cases t <;> cases r <;> simp [createMigrationsTable]

theorem createMigrationsTable_rows_length (db : DB)
    (h : db.tableCreated = true → db.rows.length ≤ 1) :
    (createMigrationsTable db).rows.length = 1 := by
  cases db with
  | mk t r a =>
    cases t with
    | false => cases r <;> simp [createMigrationsTable]
    | true =>
      have hr : r.length ≤ 1 := h rfl
      cases r with
      | nil => simp [createMigrationsTable]
      | cons x xs =>
        cases xs with
        | nil => simp [createMigrationsTable]
        | cons y ys => simp at hr

theorem createMigrationsTable_rows_ne_nil (db : DB) :
    (createMigrationsTable db).rows ≠ [] := by
  cases db with
  | mk t r a =>
    cases t <;> cases r <;> simp [createMigrationsTable]

theorem upLoop_eq_runPairs (env : Env) (c : String) :
    ∀ (names : List String) (db : DB),
      upLoop env c names db = runPairs env (upPairs c names) db := by
  intro names
  induction names with
  | nil => intro db; rfl
  | cons n rest ih =>
    intro db
    simp only [upLoop, upPairs, List.filter_cons]
    by_cases hv : strLe (upReplace n) c = true
    · have hlt : strLt c (upReplace n) = false := by
        have h2 : (! strLt c (upReplace n)) = true := hv
        simpa using h2
      rw [if_pos hv, hlt, if_neg (by simp)]
      exact ih db
    · have hlt : strLt c (upReplace n) = true := by
        have h2 : (! strLt c (upReplace n)) = false := by
          rw [show (! strLt c (upReplace n)) = strLe (upReplace n) c from rfl]
          exact Bool.not_eq_true (strLe (upReplace n) c) ▸ eq_false_of_ne_true hv
        simpa using h2
      rw [if_neg hv, hlt, if_pos rfl, List.map_cons]
      cases har : (apply env db n (upReplace n)).2.2 with
      | none =>
        simp only [runPairs, har]
        rw [ih (apply env db n (upReplace n)).1]
        simp only [upPairs]
      | some e => simp only [runPairs, har]

theorem downPairs_length (names : List String) :
    (downPairs names).length = names.length := by
  simp only [downPairs, List.length_zip, List.length_cons, List.length_map]
  omega

theorem downPairs_take_succ (names : List String) (k : Nat) (hk : k < names.length) :
    (downPairs names).take (k+1)
      = (downPairs names).take k
        ++ [(names.getD k (String.mk []),
             if 0 < k then downReplace (names.getD (k-1) (String.mk []))
             else String.mk [])] := by
  have hk2 : k < (downPairs names).length := by rw [downPairs_length]; exact hk
  rw [List.take_succ, List.getElem?_eq_getElem hk2]
  congr 1
  show [(downPairs names)[k]] = _
  congr 1
  simp only [downPairs]
  rw [List.getElem_zip]
  refine congrArg₂ Prod.mk ?_ ?_
  · exact (List.getD_eq_getElem names (String.mk []) hk).symm
  · cases k with
    | zero => simp
    | succ j =>
      have hj : j < names.length := by omega
      simp only [List.getElem_cons_succ, List.getElem_map]
      rw [← List.getD_eq_getElem names (String.mk []) hj]
      simp

theorem downLoop_eq_runPairs (env : Env) (c : String) (names : List String) :
    ∀ (k : Nat), k ≤ names.length → ∀ (db : DB),
      downLoop env c names k db
        = runPairs env
            (((downPairs names).take k).reverse.filter
              (fun p => strLe (downReplace p.1) c)) db := by
  intro k
  induction k with
  | zero => intro _ db; rfl
  | succ k ih =>
    intro hk db
    have hk' : k < names.length := hk
    rw [downPairs_take_succ names k hk', List.reverse_append, List.reverse_singleton,
      List.singleton_append]
    simp only [List.filter_cons]
    simp only [downLoop]
    by_cases hv : strLt c (downReplace (names.getD k (String.mk []))) = true
    · have hle : strLe (downReplace (names.getD k (String.mk []))) c = false := by
        show (! strLt c (downReplace (names.getD k (String.mk [])))) = false
        rw [hv]; rfl
      rw [if_pos hv, hle, if_neg (by simp)]
      exact ih (Nat.le_of_lt hk') db
    · have hvf : strLt c (downReplace (names.getD k (String.mk []))) = false := by
        cases hB : strLt c (downReplace (names.getD k (String.mk []))) with
        | true => exact absurd hB hv
        | false => rfl
      have hle : strLe (downReplace (names.getD k (String.mk []))) c = true := by
        show (! strLt c (downReplace (names.getD k (String.mk [])))) = true
        rw [hvf]; rfl
      rw [if_neg hv, hle, if_pos rfl]
      cases har : (apply env db (names.getD k (String.mk []))
          (if 0 < k then downReplace (names.getD (k-1) (String.mk []))
           else String.mk [])).2.2 with
      | none =>
        simp only [runPairs, har]
        rw [ih (Nat.le_of_lt hk')]
      | some e => simp only [runPairs, har]

theorem migrateUp_eq (env : Env) (db : DB) (c : String)
    (hT : db.tableCreated = true) (hR : db.rows = [c]) :
    migrateUp env db
      = ((runPairs env (upPairs c (getFilenames env upMatches)) db).1,
         (runPairs env (upPairs c (getFilenames env upMatches)) db).2.1,
         (runPairs env (upPairs c (getFilenames env upMatches)) db).2.2.map
           (fun e => "error migrating up: " ++ e)) := by
  have hens : createMigrationsTable db = db :=
    createMigrationsTable_of_init db hT (by simp [hR])
  simp only [migrateUp, hens, getCurrentVersion, hR, List.head?]
  rw [upLoop_eq_runPairs]

theorem migrateDown_eq (env : Env) (db : DB) (c : String)
    (hT : db.tableCreated = true) (hR : db.rows = [c]) :
    migrateDown env db
      = ((runPairs env (downSel c (getFilenames env downMatches)) db).1,
         (runPairs env (downSel c (getFilenames env downMatches)) db).2.1,
         (runPairs env (downSel c (getFilenames env downMatches)) db).2.2.map
           (fun e => "error migrating down: " ++ e)) := by
  have hens : createMigrationsTable db = db :=
    createMigrationsTable_of_init db hT (by simp [hR])
  simp only [migrateDown, hens, getCurrentVersion, hR, List.head?]
  rw [downLoop_eq_runPairs env c (getFilenames env downMatches)
    (getFilenames env downMatches).length (le_refl _),
    show (getFilenames env downMatches).length
      = (downPairs (getFilenames env downMatches)).length
      from (downPairs_length _).symm,
    List.take_length]
  rfl

theorem upToLoop_rows_length (env : Env) (c t : String) :
    ∀ (names : List String) (db : DB),
      (upToLoop env c t names db).1.rows.length = db.rows.length := by
  intro names
  induction names with
  | nil => intro db; rfl
  | cons n rest ih =>
    intro db
    simp only [upToLoop]
    by_cases h1 : strLe (upReplace n) c = true
    · rw [if_pos h1]; exact ih db
    · rw [if_neg h1]
      by_cases h2 : strLt t (upReplace n) = true
      · rw [if_pos h2]
      · rw [if_neg h2]
        cases har : (apply env db n (upReplace n)).2.2 with
        | none =>
          simp only [har]
          rw [ih (apply env db n (upReplace n)).1]
          exact apply_rows_length env db n (upReplace n)
        | some e =>
          simp only [har]
          exact apply_rows_length env db n (upReplace n)

theorem downToLoop_rows_length (env : Env) (c t : String) (names : List String) :
    ∀ (k : Nat) (db : DB) (r : DB × List Event × Option String),
      downToLoop env c t names k db = some r → r.1.rows.length = db.rows.length := by
  intro k
  induction k with
  | zero =>
    intro db r h
    obtain rfl : (db, ([] : List Event), (none : Option String)) = r := Option.some.inj h
    rfl
  | succ k ih =>
    intro db r h
    simp only [downToLoop] at h
    by_cases h1 : strLt c (downReplace (names.getD k (String.mk []))) = true
    · rw [if_pos h1] at h
      exact ih db r h
    · rw [if_neg h1] at h
      by_cases h2 : strLe (downReplace (names.getD k (String.mk []))) t = true
      · rw [if_pos h2] at h
        obtain rfl := Option.some.inj h
        rfl
      · rw [if_neg h2] at h
        by_cases h3 : k = 0
        · rw [if_pos h3] at h
          exact absurd h (by simp)
        · rw [if_neg h3] at h
          cases har : (apply env db (names.getD k (String.mk []))
              (downReplace (names.getD (k-1) (String.mk [])))).2.2 with
          | none =>
            rw [har] at h
            obtain ⟨r0, hr0, hrr⟩ := Option.map_eq_some'.mp h
            subst hrr
            rw [show r0.1.rows.length = _ from ih _ r0 hr0]
            exact apply_rows_length env db _ _
          | some e =>
            rw [har] at h
            obtain rfl := Option.some.inj h
            exact apply_rows_length env db _ _

theorem migrateUp_rows_length (env : Env) (db : DB)
    (h : db.tableCreated = true → db.rows.length ≤ 1) :
    (migrateUp env db).1.rows.length = 1 := by
  have h1 : (createMigrationsTable db).rows.length = 1 :=
    createMigrationsTable_rows_length db h
  obtain ⟨x, hx⟩ := List.length_eq_one.mp h1
  simp only [migrateUp, getCurrentVersion, hx, List.head?]
  rw [upLoop_eq_runPairs, runPairs_rows_length, hx]
  rfl

theorem migrateDown_rows_length (env : Env) (db : DB)
    (h : db.tableCreated = true → db.rows.length ≤ 1) :
    (migrateDown env db).1.rows.length = 1 := by
  have h1 : (createMigrationsTable db).rows.length = 1 :=
    createMigrationsTable_rows_length db h
  obtain ⟨x, hx⟩ := List.length_eq_one.mp h1
  simp only [migrateDown, getCurrentVersion, hx, List.head?]
  rw [downLoop_eq_runPairs env x (getFilenames env downMatches)
    (getFilenames env downMatches).length (le_refl _), runPairs_rows_length, hx]
  rfl

theorem migrateTo_rows_length (env : Env) (t : String) (db : DB)
    (h : db.tableCreated = true → db.rows.length ≤ 1) :
    ∀ r : DB × List Event × Option String,
      migrateTo env t db = some r → r.1.rows.length = 1 := by
  intro r hr
  by_cases ht : t = String.mk []
  · simp only [migrateTo, if_pos ht] at hr
    obtain rfl := Option.some.inj hr
    exact migrateDown_rows_length env db h
  · have h1 : (createMigrationsTable db).rows.length = 1 :=
      createMigrationsTable_rows_length db h
    obtain ⟨x, hx⟩ := List.length_eq_one.mp h1
    simp only [migrateTo, if_neg ht, getCurrentVersion, hx, List.head?] at hr
    by_cases hxt : x = t
    · rw [if_pos hxt] at hr
      obtain rfl := Option.some.inj hr
      exact h1
    · rw [if_neg hxt] at hr
      by_cases hf : ((getFilenames env (if strLt x t then upMatches else downMatches)).any
          (fun n => (if strLt x t then upReplace else downReplace) n == t)) = true
      · rw [if_pos hf] at hr
        by_cases hlt : strLt x t = true
        · rw [if_pos hlt] at hr
          obtain rfl := Option.some.inj hr
          rw [show ((upToLoop env x t (getFilenames env (if strLt x t then upMatches
              else downMatches)) (createMigrationsTable db)).1).rows.length = _ from
            upToLoop_rows_length env x t _ _, hx]
          rfl
        · rw [if_neg hlt] at hr
          obtain ⟨r0, hr0, hrr⟩ := Option.map_eq_some'.mp hr
          subst hrr
          rw [show r0.1.rows.length = _ from downToLoop_rows_length env x t _ _ _ r0 hr0, hx]
          rfl
      · rw [if_neg hf] at hr
        obtain rfl := Option.some.inj hr
        exact h1

/-! ## Claim theorems -/

/-- C1: from stored version `c`, `MigrateUp` walks the discovered up scripts
in listing order, skipping exactly those whose extracted version is `<=` `c`
(lexicographically), and applies the rest in order, each recording its own
extracted version; the run succeeds iff every pending script applies, and
otherwise stops at the first failure, leaving exactly the scripts before the
failure applied (their contents committed in order) and the stored version at
the last successfully applied script's version (`c` when none succeeded):
atomicity is per-script, not per-run. -/
theorem migrateUp_run_characterization (env : Env) (db : DB) (c : String)
    (hT : db.tableCreated = true) (hR : db.rows = [c]) :
    (migrateUp env db).1
        = applyFold env db (okPairs env (upPairs c (getFilenames env upMatches)))
      ∧ ((migrateUp env db).2.2 = none
          ↔ okPairs env (upPairs c (getFilenames env upMatches))
              = upPairs c (getFilenames env upMatches))
      ∧ (migrateUp env db).1.rows
          = [((okPairs env (upPairs c (getFilenames env upMatches))).map Prod.snd).getLastD c]
      ∧ (migrateUp env db).1.applied
          = db.applied
            ++ (okPairs env (upPairs c (getFilenames env upMatches))).map
                (fun p => contentOf env p.1) := by
  simp only [migrateUp_eq env db c hT hR]
  refine ⟨runPairs_state env _ db, ?_, ?_, ?_⟩
  · rw [Option.map_eq_none']
    exact runPairs_error_iff env _ db
  · rw [runPairs_state env _ db]
    exact applyFold_rows env _ db c hR
  · rw [runPairs_state env _ db, applyFold_applied env _ db]
    rfl

theorem migrateUp_run_characterization_witness :
    (migrateUp wEnv wDbE).1
        = applyFold wEnv wDbE (okPairs wEnv (upPairs (String.mk []) (getFilenames wEnv upMatches)))
      ∧ (migrateUp wEnv wDbE).1.rows = ["3"] :=
  ⟨(migrateUp_run_characterization wEnv wDbE (String.mk []) rfl rfl).1,
   by rw [(migrateUp_run_characterization wEnv wDbE (String.mk []) rfl rfl).2.2.1]; decide⟩

/-- C2: from stored version `c`, `MigrateDown` walks the discovered down
scripts in reverse (descending filename) order, skipping exactly those whose
extracted version is `>` `c`, and applies the rest in that order; each
applied script records the extracted version of the immediately preceding
script of the discovered list, or the empty string when it is the first
(earliest) script (`downPairs`); the run succeeds iff every pending script
applies, and otherwise stops at the first failure with per-script atomicity,
leaving the stored version at the version recorded by the last successful
revert (`c` when none succeeded). -/
theorem migrateDown_run_characterization (env : Env) (db : DB) (c : String)
    (hT : db.tableCreated = true) (hR : db.rows = [c]) :
    (migrateDown env db).1
        = applyFold env db (okPairs env (downSel c (getFilenames env downMatches)))
      ∧ ((migrateDown env db).2.2 = none
          ↔ okPairs env (downSel c (getFilenames env downMatches))
              = downSel c (getFilenames env downMatches))
      ∧ (migrateDown env db).1.rows
          = [((okPairs env (downSel c (getFilenames env downMatches))).map Prod.snd).getLastD c]
      ∧ (migrateDown env db).1.applied
          = db.applied
            ++ (okPairs env (downSel c (getFilenames env downMatches))).map
                (fun p => contentOf env p.1) := by
  simp only [migrateDown_eq env db c hT hR]
  refine ⟨runPairs_state env _ db, ?_, ?_, ?_⟩
  · rw [Option.map_eq_none']
    exact runPairs_error_iff env _ db
  · rw [runPairs_state env _ db]
    exact applyFold_rows env _ db c hR
  · rw [runPairs_state env _ db, applyFold_applied env _ db]
    rfl

theorem migrateDown_run_characterization_witness :
    (migrateDown wEnv wDb3).1
        = applyFold wEnv wDb3 (okPairs wEnv (downSel "3" (getFilenames wEnv downMatches)))
      ∧ (migrateDown wEnv wDb3).1.rows = [String.mk []] :=
  ⟨(migrateDown_run_characterization wEnv wDb3 "3" rfl rfl).1,
   by rw [(migrateDown_run_characterization wEnv wDb3 "3" rfl rfl).2.2.1]; decide⟩

/-- C4: a single-script application rolls the whole transaction back on any
failure of the before callback, the version-update statement, the script's
own statement execution, or the after callback, leaving the database (in
particular the stored version) exactly as before the attempt, and surfacing
an error; a failed read of the script content likewise aborts with no
database mutation (it happens before the transaction opens). -/
theorem apply_failure_rolls_back (env : Env) (db : DB) (name version : String)
    (h : readFile env name = none
      ∨ beforeRes env version = Outcome.fail
      ∨ env.updateOutcome version = Outcome.fail
      ∨ (∃ ct, readFile env name = some ct ∧ env.exec ct = Outcome.fail)
      ∨ afterRes env version = Outcome.fail) :
    (apply env db name version).1 = db
      ∧ (apply env db name version).2.2.isSome = true := by
  apply apply_of_fail
  unfold applySucceeds
  rcases h with h | h | h | ⟨ct, hct, hex⟩ | h
  · simp [h]
  · simp [h]
  · simp [h]
  · simp [hct, hex]
  · simp [h]

theorem apply_failure_rolls_back_witness :
    (apply wEnvBeforeFail wDbE "1.up.sql" "1").1 = wDbE
      ∧ (apply wEnvBeforeFail wDbE "1.up.sql" "1").2.2.isSome = true :=
  apply_failure_rolls_back wEnvBeforeFail wDbE "1.up.sql" "1"
    (Or.inr (Or.inl (by decide)))

/-- C7: a runtime panic raised by the before callback, the version-update
statement, the script statement execution, or the after callback — i.e.
anywhere between transaction open and commit — still takes the rollback
path: `apply` returns with the database unchanged and the panic surfaced to
the caller as an error, so the transaction is never left open. -/
theorem apply_panic_rolls_back (env : Env) (db : DB) (name version : String)
    (h : beforeRes env version = Outcome.panicked
      ∨ env.updateOutcome version = Outcome.panicked
      ∨ (∃ ct, readFile env name = some ct ∧ env.exec ct = Outcome.panicked)
      ∨ afterRes env version = Outcome.panicked) :
    (apply env db name version).1 = db
      ∧ (apply env db name version).2.2.isSome = true := by
  apply apply_of_fail
  unfold applySucceeds
  rcases h with h | h | ⟨ct, hct, hex⟩ | h
  · simp [h]
  · simp [h]
  · simp [hct, hex]
  · simp [h]

theorem apply_panic_rolls_back_witness :
    (apply wEnvAfterPanic wDbE "2.up.sql" "2").1 = wDbE
      ∧ (apply wEnvAfterPanic wDbE "2.up.sql" "2").2.2.isSome = true :=
  apply_panic_rolls_back wEnvAfterPanic wDbE "2.up.sql" "2"
    (Or.inr (Or.inr (Or.inr (by decide))))

/-- C8: the ensure-table step is idempotent and establishes the one-row
invariant: it creates the table only if absent and inserts the single
empty-string seed row only if the table is empty (one transaction), so a
repeated call is a no-op, and from any pre-initialization state (no table
yet, or a table with at most one row) the table afterwards has exactly one
row; every public operation preserves that invariant, so after Migrator
initialization the table always has exactly one row.  (In the model the
ensure step itself cannot error, mirroring that the source only fails there
on database faults.) -/
theorem ensure_table_invariant :
    (∀ db : DB, createMigrationsTable (createMigrationsTable db) = createMigrationsTable db)
    ∧ (∀ db : DB, (db.tableCreated = true → db.rows.length ≤ 1) →
        (createMigrationsTable db).rows.length = 1)
    ∧ (∀ (env : Env) (db : DB), (db.tableCreated = true → db.rows.length ≤ 1) →
        (migrateUp env db).1.rows.length = 1
        ∧ (migrateDown env db).1.rows.length = 1
        ∧ ∀ (t : String) (r : DB × List Event × Option String),
            migrateTo env t db = some r → r.1.rows.length = 1) :=
  ⟨createMigrationsTable_idem,
   createMigrationsTable_rows_length,
   fun env db h =>
     ⟨migrateUp_rows_length env db h,
      migrateDown_rows_length env db h,
      fun t r hr => migrateTo_rows_length env t db h r hr⟩⟩

theorem ensure_table_invariant_witness :
    (createMigrationsTable wDb0).rows.length = 1
      ∧ (migrateUp wEnv wDb0).1.rows.length = 1 :=
  ⟨ensure_table_invariant.2.1 wDb0 (by decide),
   (ensure_table_invariant.2.2 wEnv wDb0 (by decide)).1⟩

/-- C3: `MigrateTo` with the empty target delegates entirely to
`MigrateDown` (its error further wrapped); with a target equal to the
current version it succeeds applying nothing and leaving the database
unchanged; otherwise it selects the up scripts when target `>` current and
the down scripts when target `<` current, and when the target version is not
among the versions extracted from the selected set it fails with the
version-not-found error before applying any script, mutating the stored
version, or running any script content (database state unchanged, callback
trace empty). -/
theorem migrateTo_dispatch (env : Env) (db : DB) (c t : String)
    (hT : db.tableCreated = true) (hR : db.rows = [c]) :
    (t = String.mk [] →
       migrateTo env t db
         = some ((migrateDown env db).1, (migrateDown env db).2.1,
             (migrateDown env db).2.2.map (fun e => "error migrating to: " ++ e)))
    ∧ (t = c → t ≠ String.mk [] → migrateTo env t db = some (db, [], none))
    ∧ (t ≠ String.mk [] → t ≠ c →
        ((getFilenames env (if strLt c t then upMatches else downMatches)).any
            (fun n => (if strLt c t then upReplace else downReplace) n == t)) = false →
        migrateTo env t db
          = some (db, [], some ("error migrating to: error finding version " ++ t))) := by
  have hens : createMigrationsTable db = db :=
    createMigrationsTable_of_init db hT (by simp [hR])
  refine ⟨?_, ?_, ?_⟩
  · intro ht
    simp only [migrateTo, if_pos ht]
  · intro ht hne
    simp only [migrateTo, if_neg hne, hens, getCurrentVersion, hR, List.head?]
    rw [if_pos ht.symm]
  · intro hne hnc hnf
    simp only [migrateTo, if_neg hne, hens, getCurrentVersion, hR, List.head?]
    rw [if_neg (fun hcon => hnc hcon.symm), if_neg (by simp [hnf])]

theorem migrateTo_dispatch_witness :
    migrateTo wEnv "doesnotexist" wDbE
      = some (wDbE, [], some "error migrating to: error finding version doesnotexist") :=
  (migrateTo_dispatch wEnv wDbE (String.mk []) "doesnotexist" rfl rfl).2.2
    (by decide) (by decide) (by decide)

theorem downToLoop_no_panic (env : Env) (c t : String) (names : List String)
    (htc : strLt t c = true) :
    ∀ k, (∃ j, j < k ∧ downReplace (names.getD j (String.mk [])) = t) →
      ∀ db, (downToLoop env c t names k db).isSome = true := by
  intro k
  induction k with
  | zero =>
    rintro ⟨j, hj, _⟩
    exact absurd hj (Nat.not_lt_zero j)
  | succ k ih =>
    rintro ⟨j, hj, hjt⟩ db
    simp only [downToLoop]
    by_cases h1 : strLt c (downReplace (names.getD k (String.mk []))) = true
    · rw [if_pos h1]
      refine ih ⟨j, ?_, hjt⟩ db
      rcases Nat.lt_succ_iff_lt_or_eq.mp hj with h | h
      · exact h
      · subst h
        rw [hjt] at h1
        exact absurd (lt_trans (strLt_iff.mp htc) (strLt_iff.mp h1)) (lt_irrefl t)
    · rw [if_neg h1]
      by_cases h2 : strLe (downReplace (names.getD k (String.mk []))) t = true
      · rw [if_pos h2]; rfl
      · rw [if_neg h2]
        have hjk : j < k := by
          rcases Nat.lt_succ_iff_lt_or_eq.mp hj with h | h
          · exact h
          · subst h
            rw [hjt] at h2
            exact absurd (strLe_iff.mpr (le_refl t)) h2
        have hk0 : ¬ (k = 0) := by
          intro hcon
          subst hcon
          exact absurd hjk (Nat.not_lt_zero j)
        rw [if_neg hk0]
        cases har : (apply env db (names.getD k (String.mk []))
            (downReplace (names.getD (k-1) (String.mk [])))).2.2 with
        | none =>
          simp only [har, Option.isSome_map']
          exact ih ⟨j, hjk, hjt⟩ _
        | some e => simp only [har]; rfl

/-- C9: in `MigrateTo`'s downward range walk the predecessor access
`names[i-1]` never faults: under the precondition that the non-empty target
version `t` is below the current version and occurs among the versions
extracted from the discovered down scripts, the walk always breaks (at the
target) before reaching a state in which it would apply the first script,
so the index access stays in bounds and `migrateTo` returns a value instead
of panicking. -/
theorem migrateTo_down_walk_safe (env : Env) (db : DB) (c t : String)
    (hT : db.tableCreated = true) (hR : db.rows = [c])
    (hne : t ≠ String.mk []) (htc : strLt t c = true)
    (hmem : t ∈ (getFilenames env downMatches).map downReplace) :
    (migrateTo env t db).isSome = true := by
  have hens : createMigrationsTable db = db :=
    createMigrationsTable_of_init db hT (by simp [hR])
  have hct : strLt c t = false := by
    cases hB : strLt c t with
    | false => rfl
    | true => exact absurd (lt_trans (strLt_iff.mp htc) (strLt_iff.mp hB)) (lt_irrefl t)
  have hnc : ¬ (c = t) := by
    intro hcon
    subst hcon
    exact absurd (strLt_iff.mp htc) (lt_irrefl c)
  obtain ⟨n, hn, hnt⟩ := List.mem_map.mp hmem
  have hfound : ((getFilenames env downMatches).any (fun m => downReplace m == t)) = true :=
    List.any_eq_true.mpr ⟨n, hn, by simp [hnt]⟩
  simp only [migrateTo, if_neg hne, hens, getCurrentVersion, hR, List.head?,
    if_neg hnc, hct, Bool.false_eq_true, if_false]
  rw [if_pos hfound, Option.isSome_map']
  obtain ⟨j, hjlen, hjn⟩ := List.mem_iff_getElem.mp hn
  refine downToLoop_no_panic env c t (getFilenames env downMatches) htc
    (getFilenames env downMatches).length ⟨j, hjlen, ?_⟩ db
  rw [List.getD_eq_getElem (getFilenames env downMatches) (String.mk []) hjlen, hjn, hnt]

theorem migrateTo_down_walk_safe_witness :
    (migrateTo wEnv "1" wDb3).isSome = true :=
  migrateTo_down_walk_safe wEnv wDb3 "3" "1" rfl rfl (by decide) (by decide) (by decide)

theorem downKAux_bounds (cs : List Char) :
    ∀ (m k : Nat), downKAux cs m = some k →
      1 ≤ k ∧ (cs.take k).all isVerChar = true ∧ downTail (cs.drop k) = true := by
  intro m
  induction m with
  | zero => intro k h; exact absurd h (by simp [downKAux])
  | succ m ih =>
    intro k h
    simp only [downKAux] at h
    by_cases hc : ((cs.take (m+1)).all isVerChar && downTail (cs.drop (m+1))) = true
    · rw [if_pos hc] at h
      obtain rfl : m+1 = k := Option.some.inj h
      have hc2 : (cs.take (m+1)).all isVerChar = true
          ∧ downTail (cs.drop (m+1)) = true := by simpa using hc
      exact ⟨Nat.succ_le_succ (Nat.zero_le m), hc2.1, hc2.2⟩
    · rw [if_neg hc] at h
      exact ih k h

theorem downReplace_ne_empty (s : String) (h : downMatches s = true) :
    downReplace s ≠ String.mk [] := by
  unfold downMatches downK at h
  cases hk : downKAux s.data s.data.length with
  | none => rw [hk] at h; simp at h
  | some k =>
    obtain ⟨hk1, _, hk3⟩ := downKAux_bounds s.data s.data.length k hk
    unfold downReplace downK
    rw [hk]
    intro hcon
    have hdata : s.data.take k ++ s.data.drop (k+9) = [] := congrArg String.data hcon
    have htake : s.data.take k = [] := (List.append_eq_nil.mp hdata).1
    rcases List.take_eq_nil_iff.mp htake with h0 | h0
    · omega
    · rw [h0, List.drop_nil] at hk3
      simp [downTail] at hk3

theorem upReplace_ne_empty (s : String) (h : upMatches s = true) :
    upReplace s ≠ String.mk [] := by
  unfold upReplace
  rw [if_pos h]
  intro hcon
  have hdata : s.data.take (s.data.length - 7) = [] := congrArg String.data hcon
  unfold upMatches at h
  simp only [Bool.and_eq_true, decide_eq_true_eq] at h
  obtain ⟨⟨h1, _⟩, _⟩ := h
  rcases List.take_eq_nil_iff.mp hdata with h0 | h0
  · omega
  · rw [h0] at h1; simp at h1

theorem downPairs_pair_mem (names : List String) (k : Nat) (hk : k < names.length)
    (hk0 : ¬ (k = 0)) :
    (names.getD k (String.mk []), downReplace (names.getD (k-1) (String.mk [])))
      ∈ downPairs names := by
  have hk2 : k < (downPairs names).length := by rw [downPairs_length]; exact hk
  have hpair : (downPairs names)[k] = (names.getD k (String.mk []),
      downReplace (names.getD (k-1) (String.mk []))) := by
    simp only [downPairs]
    rw [List.getElem_zip]
    refine congrArg₂ Prod.mk ?_ ?_
    · exact (List.getD_eq_getElem names (String.mk []) hk).symm
    · cases k with
      | zero => exact absurd rfl hk0
      | succ j =>
        have hj : j < names.length := by omega
        simp only [List.getElem_cons_succ, List.getElem_map]
        rw [← List.getD_eq_getElem names (String.mk []) hj]
        simp
  rw [← hpair]
  exact List.getElem_mem hk2

theorem downToLoop_trace (env : Env) (c t : String) (names : List String) :
    ∀ (k : Nat), k ≤ names.length → ∀ (db : DB) (r : DB × List Event × Option String),
      downToLoop env c t names k db = some r →
      ∀ ev ∈ r.2.1, ∃ p ∈ downPairs names,
        ev = Event.beforeCall p.2 ∨ ev = Event.afterCall p.2 := by
  intro k
  induction k with
  | zero =>
    intro _ db r h ev hev
    obtain rfl := Option.some.inj h
    simp at hev
  | succ k ih =>
    intro hk db r h ev hev
    have hk' : k < names.length := hk
    simp only [downToLoop] at h
    by_cases h1 : strLt c (downReplace (names.getD k (String.mk []))) = true
    · rw [if_pos h1] at h
      exact ih (Nat.le_of_lt hk') db r h ev hev
    · rw [if_neg h1] at h
      by_cases h2 : strLe (downReplace (names.getD k (String.mk []))) t = true
      · rw [if_pos h2] at h
        obtain rfl := Option.some.inj h
        simp at hev
      · rw [if_neg h2] at h
        by_cases h3 : k = 0
        · rw [if_pos h3] at h
          exact absurd h (by simp)
        · rw [if_neg h3] at h
          have hmem := downPairs_pair_mem names k hk' h3
          cases har : (apply env db (names.getD k (String.mk []))
              (downReplace (names.getD (k-1) (String.mk [])))).2.2 with
          | none =>
            rw [har] at h
            obtain ⟨r0, hr0, hrr⟩ := Option.map_eq_some'.mp h
            subst hrr
            rcases List.mem_append.mp hev with hv | hv
            · rcases apply_trace_mem env db _ _ ev hv with h4 | h4
              · exact ⟨_, hmem, Or.inl h4⟩
              · exact ⟨_, hmem, Or.inr h4⟩
            · exact ih (Nat.le_of_lt hk') _ r0 hr0 ev hv
          | some e =>
            rw [har] at h
            obtain rfl := Option.some.inj h
            rcases apply_trace_mem env db _ _ ev hev with h4 | h4
            · exact ⟨_, hmem, Or.inl h4⟩
            · exact ⟨_, hmem, Or.inr h4⟩

/-- C10: every callback invocation made while reverting scripts — by
`MigrateDown`, or by `MigrateTo`'s downward walk — receives as its version
argument the version being recorded as the new current version: the paired
next-lower version from `downPairs` (the extracted version of the preceding
script in the discovered list, or the empty string for the earliest script).
When the extracted versions are strictly ascending, that recorded version is
never the reverted script's own version. -/
theorem down_callbacks_recorded_version (env : Env) (db : DB) (c t : String)
    (hT : db.tableCreated = true) (hR : db.rows = [c])
    (hne : t ≠ String.mk []) (htc : strLt t c = true) :
    (∀ ev ∈ (migrateDown env db).2.1,
        ∃ p ∈ downPairs (getFilenames env downMatches),
          ev = Event.beforeCall p.2 ∨ ev = Event.afterCall p.2)
    ∧ (∀ r, migrateTo env t db = some r →
        ∀ ev ∈ r.2.1,
          ∃ p ∈ downPairs (getFilenames env downMatches),
            ev = Event.beforeCall p.2 ∨ ev = Event.afterCall p.2)
    ∧ (((getFilenames env downMatches).map downReplace).Pairwise
          (fun a b => strLt a b = true) →
        ∀ p ∈ downPairs (getFilenames env downMatches), p.2 ≠ downReplace p.1) := by
  have hens : createMigrationsTable db = db :=
    createMigrationsTable_of_init db hT (by simp [hR])
  refine ⟨?_, ?_, ?_⟩
  · intro ev hev
    rw [migrateDown_eq env db c hT hR] at hev
    obtain ⟨p, hp, hevp⟩ := runPairs_trace env _ db ev hev
    refine ⟨p, ?_, hevp⟩
    have hp2 : p ∈ downPairs (getFilenames env downMatches)
        ∧ strLe (downReplace p.1) c = true := by simpa [downSel] using hp
    exact hp2.1
  · intro r hmr ev hev
    have hct : strLt c t = false := by
      cases hB : strLt c t with
      | false => rfl
      | true => exact absurd (lt_trans (strLt_iff.mp htc) (strLt_iff.mp hB)) (lt_irrefl t)
    have hnc : ¬ (c = t) := by
      intro hcon
      subst hcon
      exact absurd (strLt_iff.mp htc) (lt_irrefl c)
    simp only [migrateTo, if_neg hne, hens, getCurrentVersion, hR, List.head?,
      if_neg hnc, hct, Bool.false_eq_true, if_false] at hmr
    by_cases hf : ((getFilenames env downMatches).any (fun m => downReplace m == t)) = true
    · rw [if_pos hf] at hmr
      obtain ⟨r0, hr0, hrr⟩ := Option.map_eq_some'.mp hmr
      subst hrr
      exact downToLoop_trace env c t (getFilenames env downMatches)
        (getFilenames env downMatches).length (le_refl _) db r0 hr0 ev hev
    · rw [if_neg hf] at hmr
      obtain rfl := Option.some.inj hmr
      simp at hev
  · intro hsorted p hp
    obtain ⟨n, hn, hpn⟩ := List.mem_iff_getElem.mp hp
    have hn' : n < (getFilenames env downMatches).length := by
      rw [← downPairs_length (getFilenames env downMatches)]
      exact hn
    rw [← hpn]
    simp only [downPairs]
    rw [List.getElem_zip]
    cases n with
    | zero =>
      simp only [List.getElem_cons_zero]
      intro hcon
      have hmem : (getFilenames env downMatches)[0] ∈ getFilenames env downMatches :=
        List.getElem_mem hn'
      have hm : downMatches ((getFilenames env downMatches)[0]) = true :=
        (List.mem_filter.mp hmem).2
      exact downReplace_ne_empty _ hm hcon.symm
    | succ j =>
      simp only [List.getElem_cons_succ, List.getElem_map]
      intro hcon
      have hj : j < (getFilenames env downMatches).length := by omega
      have hlt := List.pairwise_iff_getElem.mp hsorted j (j+1)
        (by simpa using hj) (by simpa using hn') (Nat.lt_succ_self j)
      simp only [List.getElem_map] at hlt
      rw [hcon] at hlt
      exact absurd (strLt_iff.mp hlt) (lt_irrefl _)

theorem down_callbacks_recorded_version_witness :
    ∃ p ∈ downPairs (getFilenames wEnvCb downMatches),
      Event.beforeCall "2" = Event.beforeCall p.2
        ∨ Event.beforeCall "2" = Event.afterCall p.2 :=
  (down_callbacks_recorded_version wEnvCb wDb3 "3" "1" rfl rfl (by decide) (by decide)).1
    (Event.beforeCall "2") (by decide)

theorem upTail_eq_true_iff (cs : List Char) :
    upTail cs = true
      ↔ ∃ c0 c3, c0 ≠ '\n' ∧ c3 ≠ '\n' ∧ cs = [c0, 'u', 'p', c3, 's', 'q', 'l'] := by
  rcases cs with _ | ⟨a0, _ | ⟨a1, _ | ⟨a2, _ | ⟨a3, _ | ⟨a4, _ | ⟨a5, _ | ⟨a6, _ | ⟨a7, rest⟩⟩⟩⟩⟩⟩⟩⟩
  case nil => simp [upTail]
  case cons.nil => simp [upTail]
  case cons.cons.nil => simp [upTail]
  case cons.cons.cons.nil => simp [upTail]
  case cons.cons.cons.cons.nil => simp [upTail]
  case cons.cons.cons.cons.cons.nil => simp [upTail]
  case cons.cons.cons.cons.cons.cons.nil => simp [upTail]
  case cons.cons.cons.cons.cons.cons.cons.nil =>
    constructor
    · intro h
      simp only [upTail, Bool.and_eq_true, Bool.not_eq_true', beq_iff_eq,
        beq_eq_false_iff_ne] at h
      obtain ⟨⟨⟨⟨⟨⟨h0, h1⟩, h2⟩, h3⟩, h4⟩, h5⟩, h6⟩ := h
      exact ⟨a0, a3, h0, h3, by rw [h1, h2, h4, h5, h6]⟩
    · rintro ⟨c0, c3, h0, h3, hcs⟩
      simp only [List.cons.injEq, and_true] at hcs
      obtain ⟨ha0, h1, h2, ha3, h4, h5, h6⟩ := hcs
      subst ha0
      subst ha3
      simp [upTail, h1, h2, h4, h5, h6, h0, h3]
  case cons.cons.cons.cons.cons.cons.cons.cons => simp [upTail]

theorem downTail_eq_true_iff (cs : List Char) :
    downTail cs = true
      ↔ ∃ c0 c5 rest, c0 ≠ '\n' ∧ c5 ≠ '\n'
          ∧ cs = c0 :: 'd' :: 'o' :: 'w' :: 'n' :: c5 :: 's' :: 'q' :: 'l' :: rest := by
  rcases cs with _ | ⟨a0, _ | ⟨a1, _ | ⟨a2, _ | ⟨a3, _ | ⟨a4, _ | ⟨a5, _ | ⟨a6, _ | ⟨a7, _ | ⟨a8, rest⟩⟩⟩⟩⟩⟩⟩⟩⟩
  case nil => simp [downTail]
  case cons.nil => simp [downTail]
  case cons.cons.nil => simp [downTail]
  case cons.cons.cons.nil => simp [downTail]
  case cons.cons.cons.cons.nil => simp [downTail]
  case cons.cons.cons.cons.cons.nil => simp [downTail]
  case cons.cons.cons.cons.cons.cons.nil => simp [downTail]
  case cons.cons.cons.cons.cons.cons.cons.nil => simp [downTail]
  case cons.cons.cons.cons.cons.cons.cons.cons.nil => simp [downTail]
  case cons.cons.cons.cons.cons.cons.cons.cons.cons =>
    constructor
    · intro h
      simp only [downTail, Bool.and_eq_true, Bool.not_eq_true', beq_iff_eq,
        beq_eq_false_iff_ne] at h
      obtain ⟨⟨⟨⟨⟨⟨⟨⟨h0, h1⟩, h2⟩, h3⟩, h4⟩, h5⟩, h6⟩, h7⟩, h8⟩ := h
      exact ⟨a0, a5, rest, h0, h5, by rw [h1, h2, h3, h4, h6, h7, h8]⟩
    · rintro ⟨c0, c5, rest2, h0, h5, hcs⟩
      simp only [List.cons.injEq] at hcs
      obtain ⟨ha0, h1, h2, h3, h4, ha5, h6, h7, h8, _⟩ := hcs
      subst ha0
      subst ha5
      simp [downTail, h1, h2, h3, h4, h6, h7, h8, h0, h5]

/-- The up matcher accepts exactly the strings of the regex's language (with
each unescaped dot matching any character except newline): a nonempty `[\w-]`
group followed by the 7-character tail `?up?sql`. -/
theorem upMatches_iff (s : String) :
    upMatches s = true
      ↔ ∃ (g : List Char) (c0 c3 : Char), g ≠ []
          ∧ (∀ c ∈ g, isVerChar c = true)
          ∧ c0 ≠ '\n' ∧ c3 ≠ '\n'
          ∧ s.data = g ++ [c0, 'u', 'p', c3, 's', 'q', 'l'] := by
  unfold upMatches
  simp only [Bool.and_eq_true, decide_eq_true_eq, List.all_eq_true]
  constructor
  · rintro ⟨⟨h1, h2⟩, h3⟩
    obtain ⟨c0, c3, hn0, hn3, hd⟩ := (upTail_eq_true_iff _).mp h3
    refine ⟨s.data.take (s.data.length - 7), c0, c3, ?_, h2, hn0, hn3, ?_⟩
    · intro hcon
      rcases List.take_eq_nil_iff.mp hcon with h0 | h0
      · omega
      · rw [h0] at h1; simp at h1
    · rw [← hd, List.take_append_drop]
  · rintro ⟨g, c0, c3, hg, hall, hn0, hn3, hd⟩
    have hlen : s.data.length = g.length + 7 := by rw [hd]; simp
    have hglen : 1 ≤ g.length := List.length_pos.mpr hg
    have htake : s.data.take (s.data.length - 7) = g := by
      rw [hd]
      simp [List.take_left]
    have hdrop : s.data.drop (s.data.length - 7) = [c0, 'u', 'p', c3, 's', 'q', 'l'] := by
      rw [hd]
      simp [List.drop_left]
    refine ⟨⟨by omega, ?_⟩, ?_⟩
    · rw [htake]; exact hall
    · rw [hdrop]
      exact (upTail_eq_true_iff _).mpr ⟨c0, c3, hn0, hn3, rfl⟩

theorem downKAux_complete (cs : List Char) :
    ∀ (m k : Nat), k ≤ m → 1 ≤ k → (cs.take k).all isVerChar = true →
      downTail (cs.drop k) = true → (downKAux cs m).isSome = true := by
  intro m
  induction m with
  | zero => intro k hk hk1 _ _; omega
  | succ m ih =>
    intro k hk hk1 hall htail
    simp only [downKAux]
    by_cases hc : ((cs.take (m+1)).all isVerChar && downTail (cs.drop (m+1))) = true
    · rw [if_pos hc]; rfl
    · rw [if_neg hc]
      rcases Nat.lt_succ_iff_lt_or_eq.mp (Nat.lt_succ_of_le hk) with h | h
      · exact ih k (by omega) hk1 hall htail
      · subst h
        exact absurd (by simp [hall, htail]) hc

/-- The down matcher accepts exactly the strings of the regex's language
(each unescaped dot matching any character except newline, unanchored at the
end): a nonempty `[\w-]` group, the 9-character core `?down?sql`, and an
arbitrary tail. -/
theorem downMatches_iff (s : String) :
    downMatches s = true
      ↔ ∃ (g : List Char) (c0 c5 : Char) (rest : List Char), g ≠ []
          ∧ (∀ c ∈ g, isVerChar c = true)
          ∧ c0 ≠ '\n' ∧ c5 ≠ '\n'
          ∧ s.data = g ++ c0 :: 'd' :: 'o' :: 'w' :: 'n' :: c5 :: 's' :: 'q' :: 'l' :: rest := by
  unfold downMatches downK
  constructor
  · intro h
    cases hk : downKAux s.data s.data.length with
    | none => rw [hk] at h; simp at h
    | some k =>
      obtain ⟨hk1, hall, htail⟩ := downKAux_bounds s.data s.data.length k hk
      obtain ⟨c0, c5, rest, hn0, hn5, hd⟩ := (downTail_eq_true_iff _).mp htail
      refine ⟨s.data.take k, c0, c5, rest, ?_, List.all_eq_true.mp hall, hn0, hn5, ?_⟩
      · intro hcon
        rcases List.take_eq_nil_iff.mp hcon with h0 | h0
        · omega
        · rw [h0, List.drop_nil] at hd
          simp at hd
      · rw [← hd, List.take_append_drop]
  · rintro ⟨g, c0, c5, rest, hg, hall, hn0, hn5, hd⟩
    have hglen : 1 ≤ g.length := List.length_pos.mpr hg
    have hlen : g.length ≤ s.data.length := by rw [hd]; simp
    have htake : s.data.take g.length = g := by rw [hd]; simp [List.take_left]
    have hdrop : s.data.drop g.length
        = c0 :: 'd' :: 'o' :: 'w' :: 'n' :: c5 :: 's' :: 'q' :: 'l' :: rest := by
      rw [hd]; simp [List.drop_left]
    apply downKAux_complete s.data s.data.length g.length hlen hglen
    · rw [htake]; exact List.all_eq_true.mpr hall
    · rw [hdrop]
      exact (downTail_eq_true_iff _).mpr ⟨c0, c5, rest, hn0, hn5, rfl⟩

theorem downKAuxSpec_bounds (cs : List Char) :
    ∀ (m k : Nat), downKAuxSpec cs m = some k →
      1 ≤ k ∧ (cs.take k).all isVerChar = true ∧ downTailSpec (cs.drop k) = true := by
  intro m
  induction m with
  | zero => intro k h; exact absurd h (by simp [downKAuxSpec])
  | succ m ih =>
    intro k h
    simp only [downKAuxSpec] at h
    by_cases hc : ((cs.take (m+1)).all isVerChar && downTailSpec (cs.drop (m+1))) = true
    · rw [if_pos hc] at h
      obtain rfl : m+1 = k := Option.some.inj h
      have hc2 : (cs.take (m+1)).all isVerChar = true
          ∧ downTailSpec (cs.drop (m+1)) = true := by simpa using hc
      exact ⟨Nat.succ_le_succ (Nat.zero_le m), hc2.1, hc2.2⟩
    · rw [if_neg hc] at h
      exact ih k h

theorem downTailSpec_shape (cs : List Char) (h : downTailSpec cs = true) :
    ∃ rest,
      cs = '.' :: 'd' :: 'o' :: 'w' :: 'n' :: '.' :: 's' :: 'q' :: 'l' :: rest := by
  rcases cs with _ | ⟨a0, _ | ⟨a1, _ | ⟨a2, _ | ⟨a3, _ | ⟨a4, _ | ⟨a5, _ | ⟨a6, _ | ⟨a7, _ | ⟨a8, rest⟩⟩⟩⟩⟩⟩⟩⟩⟩ <;>
    simp only [downTailSpec, Bool.and_eq_true, beq_iff_eq] at h
  · exact absurd h (by simp)
  · exact absurd h (by simp)
  · exact absurd h (by simp)
  · exact absurd h (by simp)
  · exact absurd h (by simp)
  · exact absurd h (by simp)
  · exact absurd h (by simp)
  · exact absurd h (by simp)
  · exact absurd h (by simp)
  · obtain ⟨⟨⟨⟨⟨⟨⟨⟨h0, h1⟩, h2⟩, h3⟩, h4⟩, h5⟩, h6⟩, h7⟩, h8⟩ := h
    exact ⟨rest, by rw [h0, h1, h2, h3, h4, h5, h6, h7, h8]⟩

/-- C6, counterexample: the source patterns have unescaped dots, so the
filename `1xupxsql` — which does not match the spec's literal-dot pattern
`^([\w-]+)\.up\.sql$` — is nevertheless discovered as an up script (and dot
is likewise a wildcard in the down pattern). -/
theorem pattern_contract_counterexample :
    upMatches "1xupxsql" = true
      ∧ upMatchesSpec "1xupxsql" = false
      ∧ getFilenames { wEnv with files := [("1xupxsql", "x")] } upMatches = ["1xupxsql"]
      ∧ downMatches "1xdownxsql" = true
      ∧ downMatchesSpec "1xdownxsql" = false := by
  refine ⟨by decide, by decide, by decide, by decide, by decide⟩

/-- C6, amended: a filename is discovered as an up script exactly when it is
a directory entry matching the source pattern `^([\w-]+).up.sql$`, whose
unescaped dots each match any single character except newline (anchored at
both ends), and as a down script exactly when it matches `^([\w-]+).down.sql`
(same wildcard dots, anchored only at the start, so trailing characters
still match); the version token is the capture group.  Every filename
matching the spec's literal-dot patterns also matches these, but not
conversely. -/
theorem pattern_contract (env : Env) (n : String) :
    (n ∈ getFilenames env upMatches ↔ n ∈ env.files.map Prod.fst ∧ upMatches n = true)
    ∧ (n ∈ getFilenames env downMatches ↔ n ∈ env.files.map Prod.fst ∧ downMatches n = true)
    ∧ (upMatches n = true
        ↔ ∃ (g : List Char) (c0 c3 : Char), g ≠ []
            ∧ (∀ c ∈ g, isVerChar c = true)
            ∧ c0 ≠ '\n' ∧ c3 ≠ '\n'
            ∧ n.data = g ++ [c0, 'u', 'p', c3, 's', 'q', 'l'])
    ∧ (downMatches n = true
        ↔ ∃ (g : List Char) (c0 c5 : Char) (rest : List Char), g ≠ []
            ∧ (∀ c ∈ g, isVerChar c = true)
            ∧ c0 ≠ '\n' ∧ c5 ≠ '\n'
            ∧ n.data = g ++ c0 :: 'd' :: 'o' :: 'w' :: 'n' :: c5 :: 's' :: 'q' :: 'l' :: rest)
    ∧ (upMatchesSpec n = true → upMatches n = true)
    ∧ (downMatchesSpec n = true → downMatches n = true) := by
  refine ⟨List.mem_filter, List.mem_filter, upMatches_iff n, downMatches_iff n, ?_, ?_⟩
  · intro h
    unfold upMatchesSpec at h
    unfold upMatches
    simp only [Bool.and_eq_true] at h ⊢
    refine ⟨h.1, ?_⟩
    have h2 := h.2
    have hd : n.data.drop (n.data.length - 7) = ['.', 'u', 'p', '.', 's', 'q', 'l'] := by
      rcases hcs : n.data.drop (n.data.length - 7) with _ | ⟨a0, _ | ⟨a1, _ | ⟨a2, _ | ⟨a3, _ | ⟨a4, _ | ⟨a5, _ | ⟨a6, _ | ⟨a7, rest⟩⟩⟩⟩⟩⟩⟩⟩ <;>
        rw [hcs] at h2 <;>
        simp only [upTailSpec, Bool.and_eq_true, beq_iff_eq] at h2
      · exact absurd h2 (by simp)
      · exact absurd h2 (by simp)
      · exact absurd h2 (by simp)
      · exact absurd h2 (by simp)
      · exact absurd h2 (by simp)
      · exact absurd h2 (by simp)
      · exact absurd h2 (by simp)
      · obtain ⟨⟨⟨⟨⟨⟨hb0, hb1⟩, hb2⟩, hb3⟩, hb4⟩, hb5⟩, hb6⟩ := h2
        rw [hb0, hb1, hb2, hb3, hb4, hb5, hb6]
      · exact absurd h2 (by simp)
    rw [hd]
    exact (upTail_eq_true_iff _).mpr ⟨'.', '.', by decide, by decide, rfl⟩
  · intro h
    unfold downMatchesSpec at h
    cases hk : downKAuxSpec n.data n.data.length with
    | none => rw [hk] at h; exact absurd h (by simp)
    | some k =>
      obtain ⟨hk1, hall, htail⟩ := downKAuxSpec_bounds n.data n.data.length k hk
      obtain ⟨rest, hd⟩ := (downTailSpec_shape _ htail)
      apply (downMatches_iff n).mpr
      refine ⟨n.data.take k, '.', '.', rest, ?_, List.all_eq_true.mp hall,
        by decide, by decide, ?_⟩
      · intro hcon
        rcases List.take_eq_nil_iff.mp hcon with h0 | h0
        · omega
        · rw [h0, List.drop_nil] at hd
          simp at hd
      · rw [← hd, List.take_append_drop]

theorem pattern_contract_witness :
    upMatches "1.up.sql" = true ∧ downMatches "1.down.sql.bak" = true :=
  ⟨(pattern_contract wEnv "1.up.sql").2.2.2.2.1 (by decide),
   (pattern_contract wEnv "1.down.sql.bak").2.2.2.2.2 (by decide)⟩

theorem empty_strLt (v : String) (h : v ≠ String.mk []) : strLt (String.mk []) v = true := by
  cases v with
  | mk data =>
    cases data with
    | nil => exact absurd rfl h
    | cons a l =>
      apply strLt_iff.mpr
      rw [String.lt_iff_toList_lt]
      exact List.nil_lt_cons a l

theorem sorted_le_getLastD :
    ∀ (l : List String) (d : String),
      l.Pairwise (fun a b => strLt a b = true) →
      ∀ x ∈ l, x ≤ l.getLastD d := by
  intro l
  induction l with
  | nil => intro d _ x hx; simp at hx
  | cons a l ih =>
    intro d h x hx
    rw [List.getLastD_cons]
    obtain ⟨hhead, htail⟩ := List.pairwise_cons.mp h
    rcases List.mem_cons.mp hx with rfl | hx2
    · cases l with
      | nil => exact le_refl x
      | cons b l2 =>
        have hmem : (b :: l2).getLastD x ∈ b :: l2 := by
          rw [List.getLastD_cons]
          exact List.getLastD_mem_cons l2 b
        exact le_of_lt (strLt_iff.mp (hhead _ hmem))
    · exact ih a htail x hx2

theorem applyFold_tableCreated (env : Env) :
    ∀ (ps : List (String × String)) (db : DB),
      (applyFold env db ps).tableCreated = db.tableCreated := by
  intro ps
  induction ps with
  | nil => intro db; rfl
  | cons p rest ih =>
    intro db
    rw [show applyFold env db (p :: rest)
        = applyFold env (okState env db p.1 p.2) rest from rfl]
    rw [ih]
    rfl

theorem foldl_cancel {σ : Type} (interp : String → σ → σ) :
    ∀ (us ds : List String), us.length = ds.length →
      (∀ pr ∈ us.zip ds, ∀ x, interp pr.2 (interp pr.1 x) = x) →
      ∀ s, List.foldl (fun x ct => interp ct x) s (us ++ ds.reverse) = s := by
  intro us
  induction us with
  | nil =>
    intro ds hlen _ s
    cases ds with
    | nil => rfl
    | cons d ds => simp at hlen
  | cons u us ih =>
    intro ds hlen hinv s
    cases ds with
    | nil => simp at hlen
    | cons d ds =>
      simp only [List.reverse_cons, List.cons_append, List.foldl_cons]
      rw [show us ++ (ds.reverse ++ [d]) = (us ++ ds.reverse) ++ [d] from
        (List.append_assoc us ds.reverse [d]).symm]
      rw [List.foldl_append]
      rw [ih ds (by simpa using hlen)
        (fun pr hpr => hinv pr (by rw [List.zip_cons_cons]; exact List.mem_cons_of_mem _ hpr))]
      simp only [List.foldl_cons, List.foldl_nil]
      exact hinv (u, d) (by rw [List.zip_cons_cons]; exact List.mem_cons_self _ _) s

theorem downPairs_fst (names : List String) :
    (downPairs names).map Prod.fst = names :=
  List.map_fst_zip names _ (by simp)

theorem downPairs_reverse_snd_last (names : List String) (d : String)
    (hne : names ≠ []) :
    (((downPairs names).reverse).map Prod.snd).getLastD d = String.mk [] := by
  cases names with
  | nil => exact absurd rfl hne
  | cons n rest =>
    rw [show downPairs (n :: rest)
        = (n, String.mk []) :: rest.zip ((n :: rest).map downReplace) from rfl]
    rw [List.reverse_cons, List.map_append]
    simp [List.getLastD_concat]

/-- C5: for a script set in which the discovered up and down scripts carry
the same versions in the same (strictly ascending) discovered order, and in
which every application succeeds, running `MigrateUp` to completion and then
`MigrateDown` to completion succeeds, returns the version store to the empty
string, and commits exactly the up contents followed by the down contents in
reverse order — so for any interpretation of script contents as state
transformations in which each down script inverts its up counterpart, the
composite effect of the whole round trip is the identity (all observable
effects of the up scripts are removed). -/
theorem up_down_round_trip (env : Env) (db : DB)
    (hT : db.tableCreated = true) (hR : db.rows = [String.mk []])
    (hv : (getFilenames env upMatches).map upReplace
        = (getFilenames env downMatches).map downReplace)
    (hsorted : ((getFilenames env upMatches).map upReplace).Pairwise
        (fun a b => strLt a b = true))
    (hupok : ∀ n ∈ getFilenames env upMatches, applySucceeds env n (upReplace n) = true)
    (hdownok : ∀ p ∈ downPairs (getFilenames env downMatches),
        applySucceeds env p.1 p.2 = true) :
    (migrateUp env db).2.2 = none
    ∧ (migrateDown env (migrateUp env db).1).2.2 = none
    ∧ (migrateDown env (migrateUp env db).1).1.rows = [String.mk []]
    ∧ (migrateDown env (migrateUp env db).1).1.applied
        = db.applied ++ (getFilenames env upMatches).map (contentOf env)
            ++ ((getFilenames env downMatches).map (contentOf env)).reverse
    ∧ ∀ {σ : Type} (interp : String → σ → σ) (s : σ),
        (∀ pr ∈ ((getFilenames env upMatches).map (contentOf env)).zip
              ((getFilenames env downMatches).map (contentOf env)),
            ∀ x, interp pr.2 (interp pr.1 x) = x) →
        List.foldl (fun x ct => interp ct x) s
            ((getFilenames env upMatches).map (contentOf env)
              ++ ((getFilenames env downMatches).map (contentOf env)).reverse) = s := by
  have hfilter : (getFilenames env upMatches).filter
      (fun n => strLt (String.mk []) (upReplace n)) = getFilenames env upMatches := by
    rw [List.filter_eq_self]
    intro n hn
    have hmatch : upMatches n = true := (List.mem_filter.mp hn).2
    exact empty_strLt _ (upReplace_ne_empty n hmatch)
  have hupPairs : upPairs (String.mk []) (getFilenames env upMatches)
      = (getFilenames env upMatches).map (fun n => (n, upReplace n)) := by
    rw [upPairs, hfilter]
  have hokUp : okPairs env (upPairs (String.mk []) (getFilenames env upMatches))
      = upPairs (String.mk []) (getFilenames env upMatches) := by
    unfold okPairs
    rw [List.takeWhile_eq_self_iff]
    intro p hp
    rw [hupPairs] at hp
    obtain ⟨n, hn, rfl⟩ := List.mem_map.mp hp
    exact hupok n hn
  have hUpEq := migrateUp_eq env db (String.mk []) hT hR
  have h1 : (migrateUp env db).2.2 = none := by
    simp only [hUpEq]
    rw [Option.map_eq_none']
    exact (runPairs_error_iff env _ db).mpr hokUp
  have hstate1 : (migrateUp env db).1
      = applyFold env db (upPairs (String.mk []) (getFilenames env upMatches)) := by
    simp only [hUpEq]
    rw [runPairs_state env _ db, hokUp]
  have hsnd : ((getFilenames env upMatches).map (fun n => (n, upReplace n))).map Prod.snd
      = (getFilenames env upMatches).map upReplace := by
    rw [List.map_map]
    rfl
  have hrows1 : (migrateUp env db).1.rows
      = [((getFilenames env upMatches).map upReplace).getLastD (String.mk [])] := by
    rw [hstate1, applyFold_rows env _ db (String.mk []) hR, hupPairs, hsnd]
  have htab1 : (migrateUp env db).1.tableCreated = true := by
    rw [hstate1, applyFold_tableCreated, hT]
  have hDownEq := migrateDown_eq env (migrateUp env db).1
    (((getFilenames env upMatches).map upReplace).getLastD (String.mk [])) htab1 hrows1
  have hallle : ∀ p ∈ (downPairs (getFilenames env downMatches)).reverse,
      strLe (downReplace p.1)
        (((getFilenames env upMatches).map upReplace).getLastD (String.mk [])) = true := by
    intro p hp
    have hp2 : p ∈ downPairs (getFilenames env downMatches) := List.mem_reverse.mp hp
    have hfst : p.1 ∈ getFilenames env downMatches := by
      have := List.mem_map_of_mem Prod.fst hp2
      rwa [downPairs_fst] at this
    have hmem2 : downReplace p.1 ∈ (getFilenames env upMatches).map upReplace := by
      rw [hv]
      exact List.mem_map_of_mem downReplace hfst
    exact strLe_iff.mpr
      (sorted_le_getLastD ((getFilenames env upMatches).map upReplace) (String.mk [])
        hsorted _ hmem2)
  have hdownSel : downSel (((getFilenames env upMatches).map upReplace).getLastD
        (String.mk [])) (getFilenames env downMatches)
      = (downPairs (getFilenames env downMatches)).reverse := by
    unfold downSel
    rw [List.filter_eq_self]
    exact hallle
  have hokDown : okPairs env (downSel (((getFilenames env upMatches).map
        upReplace).getLastD (String.mk [])) (getFilenames env downMatches))
      = downSel (((getFilenames env upMatches).map upReplace).getLastD (String.mk []))
          (getFilenames env downMatches) := by
    unfold okPairs
    rw [List.takeWhile_eq_self_iff]
    intro p hp
    rw [hdownSel] at hp
    exact hdownok p (List.mem_reverse.mp hp)
  have h2 : (migrateDown env (migrateUp env db).1).2.2 = none := by
    simp only [hDownEq]
    rw [Option.map_eq_none']
    exact (runPairs_error_iff env _ _).mpr hokDown
  have hstate2 : (migrateDown env (migrateUp env db).1).1
      = applyFold env (migrateUp env db).1
          (downSel (((getFilenames env upMatches).map upReplace).getLastD (String.mk []))
            (getFilenames env downMatches)) := by
    simp only [hDownEq]
    rw [runPairs_state env _ _, hokDown]
  have h3 : (migrateDown env (migrateUp env db).1).1.rows = [String.mk []] := by
    rw [hstate2, applyFold_rows env _ _ _ hrows1, hdownSel]
    by_cases hdn : getFilenames env downMatches = []
    · have hun : (getFilenames env upMatches).map upReplace = [] := by
        rw [hv, hdn]
        rfl
      rw [hdn, hun]
      rfl
    · rw [downPairs_reverse_snd_last (getFilenames env downMatches) _ hdn]
  have happlied1 : (migrateUp env db).1.applied
      = db.applied ++ (getFilenames env upMatches).map (contentOf env) := by
    rw [hstate1, applyFold_applied env _ db, hupPairs, List.map_map]
    rfl
  have h4 : (migrateDown env (migrateUp env db).1).1.applied
      = db.applied ++ (getFilenames env upMatches).map (contentOf env)
          ++ ((getFilenames env downMatches).map (contentOf env)).reverse := by
    rw [hstate2, applyFold_applied env _ _, happlied1, hdownSel]
    congr 1
    rw [show ((downPairs (getFilenames env downMatches)).reverse).map
          (fun p => (readFile env p.1).getD (String.mk []))
        = ((downPairs (getFilenames env downMatches)).map
            (fun p => (readFile env p.1).getD (String.mk []))).reverse from
      List.map_reverse _ _]
    congr 1
    rw [show (downPairs (getFilenames env downMatches)).map
          (fun p => (readFile env p.1).getD (String.mk []))
        = ((downPairs (getFilenames env downMatches)).map Prod.fst).map (contentOf env) from
      by rw [List.map_map]; rfl]
    rw [downPairs_fst]
  refine ⟨h1, h2, h3, h4, ?_⟩
  intro σ interp s hinv
  have hlen : (getFilenames env upMatches).length = (getFilenames env downMatches).length := by
    have := congrArg List.length hv
    simpa using this
  exact foldl_cancel interp _ _ (by simp [hlen]) hinv s

theorem up_down_round_trip_witness :
    (migrateUp wEnv wDbE).2.2 = none
      ∧ (migrateDown wEnv (migrateUp wEnv wDbE).1).2.2 = none
      ∧ (migrateDown wEnv (migrateUp wEnv wDbE).1).1.rows = [String.mk []] :=
  ⟨(up_down_round_trip wEnv wDbE rfl rfl (by decide) (by decide) (by decide) (by decide)).1,
   (up_down_round_trip wEnv wDbE rfl rfl (by decide) (by decide) (by decide) (by decide)).2.1,
   (up_down_round_trip wEnv wDbE rfl rfl (by decide) (by decide) (by decide) (by decide)).2.2.1⟩

example : upMatches "1.up.sql" = true := by decide
example : upMatches "1xupxsql" = true := by decide
example : upMatchesSpec "1xupxsql" = false := by decide
example : upMatches "1.up.sql.bak" = false := by decide
example : upMatches "1\nupxsql" = false := by decide
example : upMatches "1.up\nsql" = false := by decide
example : downMatches "1.down.sql.bak" = true := by decide
example : downMatches "1\ndownxsql" = false := by decide
example : downReplace "1.down.sql.bak" = "1.bak" := by decide
example : downReplace "Axdownxsql\ndownzsql" = "A\ndownzsql" := by decide
example : upReplace "2-a_B.up.sql" = "2-a_B" := by decide
example : downReplace "1.down.sql" = "1" := by decide
example : strLt "1" "2" = true := by decide
example : strLe "" "1" = true := by decide

end Migrate
